import Mathlib

/-!
Verification of the Glacier Care medical-report service.

Shallow embedding of `app.py` (the Flask service and its
`MedicalReportAnalyzer`) and `scanner_processor.py` (the
`EnhancedScannerProcessor`).  Python strings are modelled as `List Char`;
Python dicts decoded from JSON as association lists; calls into external
libraries (the generative-language backend, the PDF readers, the OCR
engines, `json.loads`) are modelled as explicit parameters describing the
outcome of each call, so that the control flow of the repository's own
code is embedded faithfully.
-/

namespace GlacierCare

/-- ASCII whitespace, as matched by Python's `str.strip` and the regex
class `\s` (the repository only ever manipulates ASCII payload text). -/
def isPySpace (c : Char) : Bool :=
  c = ' ' || c = '\t' || c = '\n' || c = '\r' || c = '\x0b' || c = '\x0c'

/-- The backtick character (codepoint 0x60), the building block of the
Markdown code-fence markers. -/
def btick : Char := '\x60'

/-- Python `str.lstrip()`. -/
def pyLStrip (l : List Char) : List Char := l.dropWhile isPySpace

/-- Python `str.rstrip()`. -/
def pyRStrip (l : List Char) : List Char := (l.reverse.dropWhile isPySpace).reverse

/-- Python `str.strip()`. -/
def pyStrip (l : List Char) : List Char := pyRStrip (pyLStrip l)

/-- Python `not text.strip()`: the string is empty or all whitespace. -/
def isBlank (l : List Char) : Bool := l.all isPySpace

/-- JSON values, as produced by Python's `json.loads`: objects are
association lists of string keys (unique in decoder output). -/
inductive Json where
  | null : Json
  | bool (b : Bool) : Json
  | num (q : ℚ) : Json
  | str (s : List Char) : Json
  | arr (l : List Json) : Json
  | obj (m : List (List Char × Json)) : Json

mutual

/-- Decidable equality on JSON values. -/
def Json.decEq : (a b : Json) → Decidable (a = b)
  | .null, .null => isTrue rfl
  | .bool a, .bool b =>
    if h : a = b then isTrue (by rw [h]) else isFalse (by simp [h])
  | .num a, .num b =>
    if h : a = b then isTrue (by rw [h]) else isFalse (by simp [h])
  | .str a, .str b =>
    if h : a = b then isTrue (by rw [h]) else isFalse (by simp [h])
  | .arr a, .arr b =>
    match Json.decEqList a b with
    | isTrue h => isTrue (by rw [h])
    | isFalse h => isFalse (by simp [h])
  | .obj a, .obj b =>
    match Json.decEqObj a b with
    | isTrue h => isTrue (by rw [h])
    | isFalse h => isFalse (by simp [h])
  | .null, .bool _ | .null, .num _ | .null, .str _ | .null, .arr _ | .null, .obj _
  | .bool _, .null | .bool _, .num _ | .bool _, .str _ | .bool _, .arr _ | .bool _, .obj _
  | .num _, .null | .num _, .bool _ | .num _, .str _ | .num _, .arr _ | .num _, .obj _
  | .str _, .null | .str _, .bool _ | .str _, .num _ | .str _, .arr _ | .str _, .obj _
  | .arr _, .null | .arr _, .bool _ | .arr _, .num _ | .arr _, .str _ | .arr _, .obj _
  | .obj _, .null | .obj _, .bool _ | .obj _, .num _ | .obj _, .str _ | .obj _, .arr _ =>
    isFalse (by intro h; exact Json.noConfusion h)

/-- Decidable equality on lists of JSON values. -/
def Json.decEqList : (a b : List Json) → Decidable (a = b)
  | [], [] => isTrue rfl
  | [], _ :: _ => isFalse (by simp)
  | _ :: _, [] => isFalse (by simp)
  | x :: xs, y :: ys =>
    match Json.decEq x y with
    | isFalse h => isFalse (by simp [h])
    | isTrue h =>
      match Json.decEqList xs ys with
      | isTrue h2 => isTrue (by rw [h, h2])
      | isFalse h2 => isFalse (by simp [h2])

/-- Decidable equality on JSON object member lists. -/
def Json.decEqObj : (a b : List (List Char × Json)) → Decidable (a = b)
  | [], [] => isTrue rfl
  | [], _ :: _ => isFalse (by simp)
  | _ :: _, [] => isFalse (by simp)
  | (k, v) :: xs, (k2, v2) :: ys =>
    if h : k = k2 then
      match Json.decEq v v2 with
      | isFalse h2 => isFalse (by simp [h2])
      | isTrue h2 =>
        match Json.decEqObj xs ys with
        | isTrue h3 => isTrue (by rw [h, h2, h3])
        | isFalse h3 => isFalse (by simp [h3])
    else isFalse (by simp [h])

end

instance : DecidableEq Json := Json.decEq

/-- First-match lookup in a decoded JSON object (Python `result[field]` /
`field in result`). -/
def lookupKey : List (List Char × Json) → List Char → Option Json
  | [], _ => none
  | (k, v) :: rest, f => if k = f then some v else lookupKey rest f

/-- Python `result[field] = value`: replace the value at the first
occurrence of the key (the key is always present when the code assigns;
if absent the pair is appended, which the embedded code never relies on). -/
def setKey : List (List Char × Json) → List Char → Json → List (List Char × Json)
  | [], f, v => [(f, v)]
  | (k, w) :: rest, f, v => if k = f then (f, v) :: rest else (k, w) :: setKey rest f v

/-- Embeds `MedicalReportAnalyzer._create_fallback_response` (app.py lines 155-181):
the fixed report returned when AI analysis fails.  `filename = []` models
both Python `None` and the empty string (both falsy). -/
def fallbackResponse (reportText filename : List Char) : Json :=
  let fileInfo : List Char :=
    if filename = [] then [] else " (from file: ".data ++ filename ++ ")".data
  Json.obj [
    ("keyFindings".data, Json.arr [
      Json.str ("Report analysis completed ".data ++ fileInfo),
      Json.str "Unable to provide detailed AI analysis at this time".data,
      Json.str "Please consult with your healthcare provider for detailed interpretation".data]),
    ("explanations".data, Json.arr [
      Json.str "We encountered a technical issue while analyzing your report".data,
      Json.str "This is a temporary problem and does not reflect on your health status".data,
      Json.str "Your healthcare provider can provide the detailed analysis you need".data]),
    ("recommendations".data, Json.arr [
      Json.str "Contact your healthcare provider for a detailed report interpretation".data,
      Json.str "Keep a copy of your medical report for your records".data,
      Json.str "Schedule a follow-up appointment to discuss your results".data]),
    ("urgentCare".data, Json.arr [
      Json.str "If you have any immediate health concerns, contact your doctor or visit the emergency room".data,
      Json.str "Do not delay seeking medical attention for urgent symptoms".data]),
    ("medicationDetails".data, Json.arr []),
    ("riskLevel".data, Json.str "moderate".data)]

/-- The six required fields checked at app.py line 130. -/
def requiredFields : List (List Char) :=
  ["keyFindings".data, "explanations".data, "recommendations".data,
   "urgentCare".data, "medicationDetails".data, "riskLevel".data]

/-- The five fields coerced to lists at app.py line 140. -/
def arrayFields : List (List Char) :=
  ["keyFindings".data, "explanations".data, "recommendations".data,
   "urgentCare".data, "medicationDetails".data]

/-- One step of the loop at app.py lines 140-142:
`if not isinstance(result[field], list): result[field] = []`. -/
def coerceArrayField (m : List (List Char × Json)) (f : List Char) : List (List Char × Json) :=
  match lookupKey m f with
  | some (Json.arr _) => m
  | _ => setKey m f (Json.arr [])

/-- The validation step of `_parse_gemini_response` (app.py lines 127-144),
applied to the value decoded by `json.loads`.  A missing required field
raises `ValueError`, which the handler at line 151 turns into the fallback
response.  A decoded value that is not a JSON object always ends in the
fallback as well: membership tests or string subscripting on a non-mapping
either fail the field check or raise `TypeError` at the riskLevel subscript,
and both paths are caught at line 151. -/
def validateResult (j : Json) : Json :=
  match j with
  | .obj m =>
    if requiredFields.all (fun f => (lookupKey m f).isSome) then
      let m1 :=
        if lookupKey m "riskLevel".data ∈
            [some (Json.str "low".data), some (Json.str "moderate".data),
             some (Json.str "high".data)] then m
        else setKey m "riskLevel".data (Json.str "moderate".data)
      let m2 := arrayFields.foldl coerceArrayField m1
      Json.obj m2
    else fallbackResponse [] []
  | _ => fallbackResponse [] []

/-- The literal pattern of the regex `` ```json\s* `` at app.py line 122. -/
def fenceJson : List Char := "```json".data

/-- The literal pattern of the regex `` ```\s* `` at app.py line 123. -/
def fence : List Char := "```".data

/-- A `dropWhile` never lengthens a list (termination helper). -/
theorem length_dropWhile_le (p : Char → Bool) (l : List Char) :
    (l.dropWhile p).length ≤ l.length := by
  induction l with
  | nil => simp
  | cons a t ih =>
    by_cases h : p a <;> simp [List.dropWhile_cons, h] <;> omega

/-- Embeds `re.sub` of a pattern followed by `\s*` (replacement empty) for a literal, whitespace-free,
non-empty pattern `p :: ps` (the code uses `` ```json `` and `` ``` ``):
scan left to right; at each position where the literal matches, delete it
together with the greedy whitespace run after it and resume scanning after
the deleted region, exactly as `re.sub` does with non-overlapping
left-to-right matches. -/
def subLit (p : Char) (ps : List Char) : List Char → List Char
  | [] => []
  | c :: cs =>
    if (p :: ps).isPrefixOf (c :: cs) then
      subLit p ps ((List.drop (ps.length + 1) (c :: cs)).dropWhile isPySpace)
    else c :: subLit p ps cs
termination_by l => l.length
decreasing_by
  · have h1 := length_dropWhile_le isPySpace (List.drop (ps.length + 1) (c :: cs))
    have h2 : (List.drop (ps.length + 1) (c :: cs)).length =
        (c :: cs).length - (ps.length + 1) := List.length_drop _ _
    simp only [List.length_cons] at *
    omega
  · simp

/-- The first substitution pass of app.py line 122: delete `` ```json `` plus trailing whitespace. -/
def subFenceJson (l : List Char) : List Char := subLit btick "``json".data l

/-- The second substitution pass of app.py line 123: delete `` ``` `` plus trailing whitespace. -/
def subFence (l : List Char) : List Char := subLit btick "``".data l

theorem subLit_nil (p : Char) (ps : List Char) : subLit p ps [] = [] := by
  simp [subLit]

theorem subLit_pos (p : Char) (ps : List Char) (c : Char) (cs : List Char)
    (h : (p :: ps).isPrefixOf (c :: cs) = true) :
    subLit p ps (c :: cs) =
      subLit p ps ((List.drop (ps.length + 1) (c :: cs)).dropWhile isPySpace) := by
  simp only [subLit]
  rw [if_pos h]

theorem subLit_neg (p : Char) (ps : List Char) (c : Char) (cs : List Char)
    (h : (p :: ps).isPrefixOf (c :: cs) = false) :
    subLit p ps (c :: cs) = c :: subLit p ps cs := by
  simp only [subLit]
  rw [if_neg (by simp [h])]

/-- The cleaning of the raw reply at app.py lines 119-123: `strip`, then
remove `` ```json`` fences, then remove bare `` ``` `` fences. -/
def cleanResponse (l : List Char) : List Char := subFence (subFenceJson (pyStrip l))

/-- Embeds `MedicalReportAnalyzer._parse_gemini_response` (app.py lines 115-153),
parameterised by the behaviour of the external `json.loads` on the cleaned
text: a decode failure (`JSONDecodeError`) yields the fallback. -/
def parseGeminiResponse (loads : List Char → Option Json) (responseText : List Char) : Json :=
  match loads (cleanResponse responseText) with
  | some j => validateResult j
  | none => fallbackResponse [] []

/-- Python exceptions escaping a modelled function. -/
inductive PyErr where
  | nameError (n : List Char) : PyErr
  deriving DecidableEq

/-- Embeds `MedicalReportAnalyzer.analyze_report` (app.py lines 34-53).  `backend`
is the outcome of `self.model.generate_content(prompt)`: either the reply
text or an exception.  On a backend exception the handler at line 51
executes `console.log(...)`, and `console` is not defined anywhere in the
module, so the handler itself raises `NameError` before reaching
`_create_fallback_response`; the exception escapes `analyze_report`. -/
def analyzeReport (loads : List Char → Option Json)
    (backend : Except (List Char) (List Char))
    (reportText filename : List Char) : Except PyErr Json :=
  match backend with
  | .ok respText => .ok (parseGeminiResponse loads respText)
  | .error _ => .error (.nameError "console".data)

/-- A Flask JSON reply: HTTP code, `status` field, optional `error`
message, optional `data` payload. -/
structure HttpReply where
  code : Nat
  status : List Char
  errMsg : Option (List Char)
  payload : Option Json
  deriving DecidableEq

/-- The metadata insertion at app.py lines 240-245 (`ts` stands for the
wall-clock timestamp). -/
def addMetadata (j : Json) (filename ts : List Char) (reportLength : ℕ) : Json :=
  match j with
  | .obj m => .obj (setKey m "metadata".data (Json.obj [
      ("filename".data, .str filename),
      ("analysisTimestamp".data, .str ts),
      ("reportLength".data, .num reportLength),
      ("aiModel".data, .str "gemini-1.5-flash".data)]))
  | other => other

/-- The `/analyze` endpoint (app.py lines 195-258).  `isJson` and
`hasData` model the request-shape guards; an exception escaping
`analyzer.analyze_report` is caught at line 252 and becomes a 500 error
reply. -/
def analyzeEndpoint (loads : List Char → Option Json)
    (backend : Except (List Char) (List Char))
    (isJson hasData : Bool) (reportText filename ts : List Char) : HttpReply :=
  if ¬ isJson then ⟨400, "error".data, some "Request must be JSON".data, none⟩
  else if ¬ hasData then ⟨400, "error".data, some "No data provided".data, none⟩
  else
    let rt := pyStrip reportText
    if rt = [] then ⟨400, "error".data, some "Report text is required".data, none⟩
    else
      match analyzeReport loads backend rt filename with
      | .error _ =>
        ⟨500, "error".data,
         some "Internal server error occurred while analyzing the report".data, none⟩
      | .ok j => ⟨200, "success".data, none, some (addMetadata j filename ts rt.length)⟩

/-- Field lookup on a JSON value (only objects have fields). -/
def lookupJson (j : Json) (f : List Char) : Option Json :=
  match j with
  | .obj m => lookupKey m f
  | _ => none

theorem lookupKey_setKey_self (m : List (List Char × Json)) (k : List Char) (v : Json) :
    lookupKey (setKey m k v) k = some v := by
  induction m with
  | nil => simp [setKey, lookupKey]
  | cons p rest ih =>
    obtain ⟨k2, w⟩ := p
    by_cases h : k2 = k <;> simp [setKey, lookupKey, h, ih]

theorem lookupKey_setKey_ne (m : List (List Char × Json)) (f : List Char) (v : Json)
    (k : List Char) (h : k ≠ f) :
    lookupKey (setKey m f v) k = lookupKey m k := by
  induction m with
  | nil => simp [setKey, lookupKey, Ne.symm h]
  | cons p rest ih =>
    obtain ⟨k2, w⟩ := p
    by_cases h2 : k2 = f
    · subst h2
      simp [setKey, lookupKey, Ne.symm h]
    · simp [setKey, lookupKey, h2]
      by_cases h3 : k2 = k <;> simp [h3, ih]

theorem lookupKey_coerce_ne (m : List (List Char × Json)) (f k : List Char) (h : k ≠ f) :
    lookupKey (coerceArrayField m f) k = lookupKey m k := by
  unfold coerceArrayField
  cases hl : lookupKey m f with
  | none => simp [lookupKey_setKey_ne m f _ k h]
  | some v =>
    cases v <;> simp [lookupKey_setKey_ne m f _ k h]

theorem lookupKey_foldl_coerce_ne (fs : List (List Char)) (m : List (List Char × Json))
    (k : List Char) (h : k ∉ fs) :
    lookupKey (fs.foldl coerceArrayField m) k = lookupKey m k := by
  induction fs generalizing m with
  | nil => simp
  | cons f rest ih =>
    simp only [List.foldl_cons]
    have hk : k ≠ f := fun hh => h (hh ▸ List.mem_cons_self f rest)
    rw [ih _ (fun hm => h (List.mem_cons_of_mem f hm)), lookupKey_coerce_ne m f k hk]

theorem lookupKey_coerce_arr (m : List (List Char × Json)) (f k : List Char) (l : List Json)
    (h : lookupKey m k = some (Json.arr l)) :
    lookupKey (coerceArrayField m f) k = some (Json.arr l) := by
  by_cases hk : k = f
  · subst hk
    simp [coerceArrayField, h]
  · rw [lookupKey_coerce_ne m f k hk, h]

theorem lookupKey_foldl_coerce_arr (fs : List (List Char)) (m : List (List Char × Json))
    (k : List Char) (l : List Json) (h : lookupKey m k = some (Json.arr l)) :
    lookupKey (fs.foldl coerceArrayField m) k = some (Json.arr l) := by
  induction fs generalizing m with
  | nil => simpa using h
  | cons f rest ih =>
    simp only [List.foldl_cons]
    exact ih _ (lookupKey_coerce_arr m f k l h)

/-- After validation, the `riskLevel` field is always one of the three
admitted strings. -/
theorem riskLevel_validateResult (j : Json) :
    lookupJson (validateResult j) "riskLevel".data ∈
      [some (Json.str "low".data), some (Json.str "moderate".data),
       some (Json.str "high".data)] := by
  cases j with
  | obj m =>
    have hnot : "riskLevel".data ∉ arrayFields := by decide
    by_cases hall : (requiredFields.all (fun f => (lookupKey m f).isSome)) = true
    · by_cases hrl : lookupKey m "riskLevel".data ∈
          [some (Json.str "low".data), some (Json.str "moderate".data),
           some (Json.str "high".data)]
      · have hv : validateResult (Json.obj m) =
            Json.obj (arrayFields.foldl coerceArrayField m) := by
          simp [validateResult, hall, hrl]
        rw [hv]
        simp only [lookupJson]
        rw [lookupKey_foldl_coerce_ne arrayFields m _ hnot]
        exact hrl
      · have hv : validateResult (Json.obj m) =
            Json.obj (arrayFields.foldl coerceArrayField
              (setKey m "riskLevel".data (Json.str "moderate".data))) := by
          simp [validateResult, hall, hrl]
        rw [hv]
        simp only [lookupJson]
        rw [lookupKey_foldl_coerce_ne arrayFields _ _ hnot, lookupKey_setKey_self]
        simp
    · have hv : validateResult (Json.obj m) = fallbackResponse [] [] := by
        simp [validateResult, hall]
      rw [hv]; decide
  | null => decide
  | bool b => cases b <;> decide
  | num q => simp only [validateResult]; decide
  | str s => simp only [validateResult]; decide
  | arr l => simp only [validateResult]; decide

/-- Python `isinstance(v, list)` on a decoded JSON value. -/
def Json.isList : Json → Bool
  | .arr _ => true
  | _ => false

/-- A decoded reply missing `keyFindings` but carrying a non-trivial
`recommendations` list (claim C2's scenario). -/
def c2Reply : Json := Json.obj [
  ("explanations".data, Json.arr []),
  ("recommendations".data, Json.arr [Json.str "Drink water".data]),
  ("urgentCare".data, Json.arr []),
  ("medicationDetails".data, Json.arr []),
  ("riskLevel".data, Json.str "low".data)]

/-- C1: the claim states that when the generative-language backend raises,
`analyze_report` still returns the fallback report and `/analyze` answers
`success` with risk level `moderate`.  In the code the `except` handler at
app.py line 51 executes `console.log(...)`, and `console` is not defined in
Python, so the handler raises `NameError` before the fallback is built: the
exception escapes `analyze_report` and `/analyze` answers 500 with status
`error`.  This theorem evaluates the embedded code at that failing input. -/
theorem C1_backend_failure_escapes_and_500 :
    analyzeReport (fun _ => none) (Except.error "ServiceUnavailable".data)
        "Hemoglobin: 9.8 g/dL".data [] =
      Except.error (PyErr.nameError "console".data) ∧
    analyzeEndpoint (fun _ => none) (Except.error "ServiceUnavailable".data)
        true true "Hemoglobin: 9.8 g/dL".data [] "2026-10-12T12:00:00".data =
      ⟨500, "error".data,
       some "Internal server error occurred while analyzing the report".data,
       none⟩ := by
  exact ⟨rfl, by decide⟩

/-- C2 counterexample: on a reply that decodes to an object lacking
`keyFindings`, validation does not insert the default empty list and does
not keep the present fields: the whole reply is discarded for the fixed
fallback report (whose `keyFindings` is a canned three-element list and
whose `recommendations` no longer contain the reply's entry). -/
theorem C2_counterexample :
    lookupJson (validateResult c2Reply) "keyFindings".data ≠ some (Json.arr []) ∧
    lookupJson (validateResult c2Reply) "recommendations".data ≠
      some (Json.arr [Json.str "Drink water".data]) := by
  decide

/-- C2 (amended): a decoded object missing any of the six required fields
is replaced wholesale by the fixed fallback report rather than repaired
field by field; the fallback itself carries all six required fields with
the correct types (five lists and an admitted risk-level string). -/
theorem C2_missing_field_yields_fallback (m : List (List Char × Json))
    (h : ∃ f ∈ requiredFields, lookupKey m f = none) :
    validateResult (Json.obj m) = fallbackResponse [] [] ∧
    (∀ f ∈ arrayFields, (lookupJson (fallbackResponse [] []) f).map Json.isList = some true) ∧
    lookupJson (fallbackResponse [] []) "riskLevel".data =
      some (Json.str "moderate".data) := by
  refine ⟨?_, by decide, by decide⟩
  obtain ⟨f, hf, hnone⟩ := h
  have hall : ¬ (requiredFields.all (fun f => (lookupKey m f).isSome) = true) := by
    intro hall
    rw [List.all_eq_true] at hall
    have := hall f hf
    rw [hnone] at this
    simp at this
  simp [validateResult, hall]

/-- Witness for C2: the empty decoded object misses `keyFindings`. -/
theorem C2_missing_field_yields_fallback_witness :
    validateResult (Json.obj []) = fallbackResponse [] [] ∧
    (∀ f ∈ arrayFields, (lookupJson (fallbackResponse [] []) f).map Json.isList = some true) ∧
    lookupJson (fallbackResponse [] []) "riskLevel".data =
      some (Json.str "moderate".data) :=
  C2_missing_field_yields_fallback [] ⟨"keyFindings".data, by decide, rfl⟩

/-- A decoded reply whose medication list holds a name-only record and a
non-record entry (claim C3's scenario); all six required fields present. -/
def c3Reply : Json := Json.obj [
  ("keyFindings".data, Json.arr []),
  ("explanations".data, Json.arr []),
  ("recommendations".data, Json.arr []),
  ("urgentCare".data, Json.arr []),
  ("medicationDetails".data, Json.arr [
    Json.obj [("name".data, Json.str "Aspirin 100mg".data)],
    Json.str "take daily".data]),
  ("riskLevel".data, Json.str "low".data)]

/-- C3 counterexample: the code never sanitizes individual medication
records.  The name-only record is admitted without any `purpose`,
`instructions` or `sideEffects` keys (so none of them equals the claimed
placeholder), and the non-record entry `"take daily"` is retained, not
dropped. -/
theorem C3_counterexample :
    lookupJson (validateResult c3Reply) "medicationDetails".data =
      some (Json.arr [Json.obj [("name".data, Json.str "Aspirin 100mg".data)],
                      Json.str "take daily".data]) ∧
    lookupJson (Json.obj [("name".data, Json.str "Aspirin 100mg".data)])
      "purpose".data = none := by
  decide

/-- C3 (amended): validation passes the `medicationDetails` list through
unchanged whenever it is a list (records are not sanitized and non-record
entries are not dropped); only a non-list value is replaced by `[]`. -/
theorem C3_medications_passed_through (m : List (List Char × Json)) (l : List Json)
    (hall : requiredFields.all (fun f => (lookupKey m f).isSome) = true)
    (hmd : lookupKey m "medicationDetails".data = some (Json.arr l)) :
    lookupJson (validateResult (Json.obj m)) "medicationDetails".data =
      some (Json.arr l) := by
  have hne : "medicationDetails".data ≠ "riskLevel".data := by decide
  by_cases hrl : lookupKey m "riskLevel".data ∈
      [some (Json.str "low".data), some (Json.str "moderate".data),
       some (Json.str "high".data)]
  · have hv : validateResult (Json.obj m) =
        Json.obj (arrayFields.foldl coerceArrayField m) := by
      simp [validateResult, hall, hrl]
    rw [hv]
    simp only [lookupJson]
    exact lookupKey_foldl_coerce_arr _ _ _ _ hmd
  · have hv : validateResult (Json.obj m) =
        Json.obj (arrayFields.foldl coerceArrayField
          (setKey m "riskLevel".data (Json.str "moderate".data))) := by
      simp [validateResult, hall, hrl]
    rw [hv]
    simp only [lookupJson]
    refine lookupKey_foldl_coerce_arr _ _ _ _ ?_
    rw [lookupKey_setKey_ne _ _ _ _ hne]
    exact hmd

/-- Witness for C3: the medication list of `c3Reply` survives verbatim. -/
theorem C3_medications_passed_through_witness :
    lookupJson (validateResult (Json.obj [
      ("keyFindings".data, Json.arr []),
      ("explanations".data, Json.arr []),
      ("recommendations".data, Json.arr []),
      ("urgentCare".data, Json.arr []),
      ("medicationDetails".data, Json.arr [Json.str "take daily".data]),
      ("riskLevel".data, Json.str "high".data)]))
      "medicationDetails".data = some (Json.arr [Json.str "take daily".data]) :=
  C3_medications_passed_through _ _ (by decide) (by decide)

/-- C6: whatever the service reply (whatever value `json.loads` produces,
or a decode failure), the report built by `_parse_gemini_response` carries
a `riskLevel` that is exactly one of `low`, `moderate`, `high`; an
out-of-set value such as `"severe"` in an otherwise complete reply is
coerced to `moderate`. -/
theorem C6_riskLevel_closed_set (loads : List Char → Option Json) (text : List Char) :
    lookupJson (parseGeminiResponse loads text) "riskLevel".data ∈
      [some (Json.str "low".data), some (Json.str "moderate".data),
       some (Json.str "high".data)] ∧
    lookupJson (validateResult (Json.obj [
      ("keyFindings".data, Json.arr []),
      ("explanations".data, Json.arr []),
      ("recommendations".data, Json.arr []),
      ("urgentCare".data, Json.arr []),
      ("medicationDetails".data, Json.arr []),
      ("riskLevel".data, Json.str "severe".data)]))
      "riskLevel".data = some (Json.str "moderate".data) := by
  constructor
  · unfold parseGeminiResponse
    cases loads (cleanResponse text) with
    | none => decide
    | some j => exact riskLevel_validateResult j
  · decide

/-! ## `scanner_processor.py`: `EnhancedScannerProcessor` -/

/-- Outcome of the EasyOCR engine on one bitmap: the reader may be absent
(`easyocr.Reader` failed to initialise, scanner_processor.py lines 29-37),
`readtext` may raise, or it returns detected regions as (text, confidence)
pairs. -/
inductive EasyOutcome where
  | unavailable : EasyOutcome
  | err : EasyOutcome
  | ok (regions : List (List Char × ℚ)) : EasyOutcome

/-- Outcome of the Tesseract engine on one bitmap: `image_to_string` may
raise, or it returns a text. -/
inductive TessOutcome where
  | err : TessOutcome
  | ok (text : List Char) : TessOutcome

/-- scanner_processor.py line 249:
`" ".join([result[1] for result in results if result[2] > 0.5])`. -/
def easyText (regions : List (List Char × ℚ)) : List Char :=
  List.intercalate [' '] ((regions.filter (fun r => r.2 > 1/2)).map (fun r => r.1))

/-- The EasyOCR contribution to `text_results` (scanner_processor.py
lines 239-253): present when the reader exists, the call succeeds and the
joined text is not blank. -/
def easyCandidates : EasyOutcome → List (List Char)
  | .ok regions => if isBlank (easyText regions) then [] else [easyText regions]
  | _ => []

/-- The Tesseract contribution to `text_results` (scanner_processor.py
lines 256-267). -/
def tessCandidates : TessOutcome → List (List Char)
  | .ok text => if isBlank text then [] else [text]
  | _ => []

/-- The `text_results` list built by `_extract_text_from_image`
(scanner_processor.py lines 236-267): EasyOCR's candidate first, then
Tesseract's. -/
def candidateList (e : EasyOutcome) (t : TessOutcome) : List (List Char) :=
  easyCandidates e ++ tessCandidates t

/-- Python `max(text_results, key=len)`: among elements of maximal length
the first encountered is kept (strict `>` in the fold). -/
def firstMaxByLen : List (List Char) → List Char
  | [] => []
  | h :: tl => tl.foldl (fun best c => if c.length > best.length then c else best) h

/-- Embeds `EnhancedScannerProcessor._extract_text_from_image`
(scanner_processor.py lines 226-273): the longest candidate, or `""` when
no engine produced a non-blank text. -/
def extractTextFromImage (e : EasyOutcome) (t : TessOutcome) : List Char :=
  firstMaxByLen (candidateList e t)

/-- One event while a PDF extraction strategy iterates: a page whose text
the backend yields, or an exception raised by the backend (at open time
when first, mid-iteration otherwise). -/
inductive PdfEvent where
  | page (t : List Char) : PdfEvent
  | raise : PdfEvent

/-- The page entry `f"Page {n+1}:\n{text}"` appended for a non-blank page
(scanner_processor.py lines 108, 123, 136; `n` is the 0-based index). -/
def pageEntry (n : ℕ) (t : List Char) : List Char :=
  "Page ".data ++ (toString (n + 1)).data ++ ":\n".data ++ t

/-- Run one extraction strategy starting at 0-based page index `n`:
returns the entries it appends to `text_content` (non-blank pages only)
and whether it raised (aborting the strategy and skipping its own
`return`). -/
def runStrategy : List PdfEvent → ℕ → List (List Char) × Bool
  | [], _ => ([], false)
  | .raise :: _, _ => ([], true)
  | .page t :: rest, n =>
    let r := runStrategy rest (n + 1)
    (if isBlank t then r.1 else pageEntry n t :: r.1, r.2)

/-- Python `"\n\n".join(text_content)` (scanner_processor.py lines 112, 126, 139). -/
def joinPages (l : List (List Char)) : List Char := List.intercalate "\n\n".data l

/-- Embeds `EnhancedScannerProcessor.process_pdf` (scanner_processor.py lines
87-147).  `m1` is the PyMuPDF strategy trace, `m2` the pdf2image+OCR
trace, `m3` the PyPDF2 trace.  `text_content` is a single list shared by
the three strategies; a strategy that raises skips its own
`if text_content: return` but keeps its entries in the list. -/
def processPdf (m1 m2 m3 : List PdfEvent) (filename : List Char) : List Char :=
  let r1 := runStrategy m1 0
  if ¬ r1.2 ∧ r1.1 ≠ [] then joinPages r1.1
  else
    let r2 := runStrategy m2 0
    let acc2 := r1.1 ++ r2.1
    if ¬ r2.2 ∧ acc2 ≠ [] then joinPages acc2
    else
      let r3 := runStrategy m3 0
      let acc3 := acc2 ++ r3.1
      if ¬ r3.2 ∧ acc3 ≠ [] then joinPages acc3
      else "[PDF] ".data ++ filename ++ " - No text could be extracted".data

/-- A strategy trace with no exception. -/
def noRaise (m : List PdfEvent) : Bool :=
  m.all (fun e => match e with | .raise => false | .page _ => true)

/-- Input to `process_image` (scanner_processor.py lines 52-85):
`Image.open`/`convert` may raise, else the two OCR engines run on the
enhanced bitmap and, when that yields only blank text, on the original
bitmap (`_enhance_image_for_ocr` never raises: it catches everything and
returns the original image). -/
inductive ImageInput where
  | loadFail (msg : List Char) : ImageInput
  | loaded (e1 : EasyOutcome) (t1 : TessOutcome) (e2 : EasyOutcome) (t2 : TessOutcome) : ImageInput

/-- Embeds `EnhancedScannerProcessor.process_image` (scanner_processor.py lines
52-85). -/
def processImage (inp : ImageInput) (filename : List Char) : List Char :=
  match inp with
  | .loadFail msg =>
    "[IMAGE] ".data ++ filename ++ " - Processing failed: ".data ++ msg
  | .loaded e1 t1 e2 t2 =>
    let text := extractTextFromImage e1 t1
    let text2 := if isBlank text then extractTextFromImage e2 t2 else text
    if pyStrip text2 = [] then "[IMAGE] ".data ++ filename ++ " - No text detected".data
    else pyStrip text2

/-- Input to `process_docx` (scanner_processor.py lines 149-172):
`Document(...)` may raise, else it yields the paragraph texts. -/
inductive DocxInput where
  | fail (msg : List Char) : DocxInput
  | ok (paras : List (List Char)) : DocxInput

/-- Embeds `EnhancedScannerProcessor.process_docx` (scanner_processor.py lines
149-172). -/
def processDocx (inp : DocxInput) (filename : List Char) : List Char :=
  match inp with
  | .fail msg => "[DOCX] ".data ++ filename ++ " - Processing failed: ".data ++ msg
  | .ok paras =>
    let tc := paras.filter (fun p => ¬ isBlank p)
    if List.intercalate "\n".data tc = [] then
      "[DOCX] ".data ++ filename ++ " - No text found".data
    else List.intercalate "\n".data tc

/-- The external behaviours `process_file` can consult, bundled: the
UTF-8 decode of the raw bytes (with errors=ignore it never raises), and the
backend traces for the image, PDF and DOCX paths. -/
structure FileJob where
  content : List Char
  img : ImageInput
  m1 : List PdfEvent
  m2 : List PdfEvent
  m3 : List PdfEvent
  docx : DocxInput

/-- Embeds `EnhancedScannerProcessor.process_file` (scanner_processor.py lines
275-302): dispatch on the MIME type. -/
def processFile (job : FileJob) (filename contentType : List Char) : List Char :=
  if "image/".data.isPrefixOf contentType then processImage job.img filename
  else if contentType = "application/pdf".data then
    processPdf job.m1 job.m2 job.m3 filename
  else if contentType = "application/msword".data ∨
      contentType = "application/vnd.openxmlformats-officedocument.wordprocessingml.document".data then
    processDocx job.docx filename
  else if contentType = "text/plain".data then job.content
  else "[UNSUPPORTED] ".data ++ filename ++ " - File type not supported for processing".data

theorem runStrategy_noRaise (m : List PdfEvent) (n : ℕ) (h : noRaise m = true) :
    (runStrategy m n).2 = false := by
  induction m generalizing n with
  | nil => rfl
  | cons e rest ih =>
    cases e with
    | raise => simp [noRaise] at h
    | page t =>
      have hrest : noRaise rest = true := by simpa [noRaise] using h
      simp [runStrategy, ih n.succ hrest]

theorem runStrategy_entry_ne_nil (m : List PdfEvent) (n : ℕ) :
    ∀ x ∈ (runStrategy m n).1, x ≠ [] := by
  induction m generalizing n with
  | nil => intro x hx; simp [runStrategy] at hx
  | cons e rest ih =>
    cases e with
    | raise => intro x hx; simp [runStrategy] at hx
    | page t =>
      intro x hx
      simp only [runStrategy] at hx
      by_cases hb : isBlank t
      · exact ih (n + 1) x (by simpa [hb] using hx)
      · rw [if_neg hb] at hx
        rcases List.mem_cons.mp hx with hx | hx
        · subst hx; simp [pageEntry]
        · exact ih (n + 1) x hx

theorem mem_runStrategy_of_page (m : List PdfEvent) (t : List Char)
    (hmem : PdfEvent.page t ∈ m) (hnb : isBlank t = false) (hnr : noRaise m = true) :
    ∀ n, ∃ k, pageEntry k t ∈ (runStrategy m n).1 := by
  induction m with
  | nil => cases hmem
  | cons e rest ih =>
    intro n
    cases e with
    | raise => simp [noRaise] at hnr
    | page t2 =>
      have hrest : noRaise rest = true := by simpa [noRaise] using hnr
      rcases List.mem_cons.mp hmem with he | he
      · cases he
        refine ⟨n, ?_⟩
        simp [runStrategy, hnb]
      · obtain ⟨k, hk⟩ := ih he hrest (n + 1)
        refine ⟨k, ?_⟩
        by_cases hb : isBlank t2 <;> simp [runStrategy, hb, hk]

theorem intercalate_singleton (sep a : List Char) :
    List.intercalate sep [a] = a := by
  simp [List.intercalate]

theorem intercalate_cons_cons (sep a b : List Char) (bs : List (List Char)) :
    List.intercalate sep (a :: b :: bs) = a ++ sep ++ List.intercalate sep (b :: bs) := by
  simp [List.intercalate, List.append_assoc]

theorem joinPages_ne_nil (l : List (List Char)) (h1 : l ≠ [])
    (h2 : ∀ x ∈ l, x ≠ []) : joinPages l ≠ [] := by
  cases l with
  | nil => exact absurd rfl h1
  | cons a rest =>
    have ha : a ≠ [] := h2 a (List.mem_cons_self a rest)
    cases rest with
    | nil => simpa [joinPages, intercalate_singleton] using ha
    | cons b bs =>
      rw [joinPages, intercalate_cons_cons]
      cases a with
      | nil => exact absurd rfl ha
      | cons c cs => simp

theorem mem_infix_intercalate (sep x : List Char) (l : List (List Char))
    (hx : x ∈ l) : x <:+: List.intercalate sep l := by
  induction l with
  | nil => cases hx
  | cons a rest ih =>
    rcases List.mem_cons.mp hx with he | he
    · subst he
      cases rest with
      | nil => rw [intercalate_singleton]
      | cons b bs =>
        refine ⟨[], sep ++ List.intercalate sep (b :: bs), ?_⟩
        rw [intercalate_cons_cons]
        simp [List.append_assoc]
    · have hr : rest ≠ [] := by rintro rfl; cases he
      obtain ⟨s, u, hsu⟩ := ih he
      cases rest with
      | nil => exact absurd rfl hr
      | cons b bs =>
        refine ⟨a ++ sep ++ s, u, ?_⟩
        rw [intercalate_cons_cons, ← hsu]
        simp [List.append_assoc]

/-- C4 counterexample: with the PyMuPDF strategy raising after extracting
page 1 (`"A"`) and the pdf2image+OCR strategy extracting `"B"`, the result
merges both strategies' pages: it equals neither single strategy's
aggregate nor the no-text sentinel. -/
theorem C4_counterexample :
    processPdf [PdfEvent.page "A".data, PdfEvent.raise] [PdfEvent.page "B".data] []
        "scan.pdf".data = "Page 1:\nA\n\nPage 1:\nB".data ∧
    processPdf [PdfEvent.page "A".data, PdfEvent.raise] [PdfEvent.page "B".data] []
        "scan.pdf".data ≠
      joinPages (runStrategy [PdfEvent.page "A".data, PdfEvent.raise] 0).1 ∧
    processPdf [PdfEvent.page "A".data, PdfEvent.raise] [PdfEvent.page "B".data] []
        "scan.pdf".data ≠ joinPages (runStrategy [PdfEvent.page "B".data] 0).1 ∧
    processPdf [PdfEvent.page "A".data, PdfEvent.raise] [PdfEvent.page "B".data] []
        "scan.pdf".data ≠ joinPages (runStrategy ([] : List PdfEvent) 0).1 ∧
    processPdf [PdfEvent.page "A".data, PdfEvent.raise] [PdfEvent.page "B".data] []
        "scan.pdf".data ≠
      "[PDF] ".data ++ "scan.pdf".data ++ " - No text could be extracted".data := by
  decide

/-- C4 (amended): `text_content` is shared across the three strategies, so
pages accumulated by a strategy that subsequently raises are retained and
merged with the pages of a later strategy: whenever strategy 1 raises
after accumulating at least one page entry and strategy 2 completes
without raising, the result is the join of both strategies' entries.  The
text is produced by a single strategy only when every earlier failed
strategy contributed no page entries. -/
theorem C4_failed_strategy_pages_merged (m1 m2 m3 : List PdfEvent) (fn : List Char)
    (h1 : (runStrategy m1 0).2 = true) (hne : (runStrategy m1 0).1 ≠ [])
    (h2 : (runStrategy m2 0).2 = false) :
    processPdf m1 m2 m3 fn = joinPages ((runStrategy m1 0).1 ++ (runStrategy m2 0).1) := by
  have hacc : (runStrategy m1 0).1 ++ (runStrategy m2 0).1 ≠ [] := by
    intro h
    rw [List.append_eq_nil] at h
    exact hne h.1
  simp [processPdf, h1, h2, hacc]

/-- Witness for C4: page `"A"` of the failed first strategy is merged with
page `"B"` of the second. -/
theorem C4_failed_strategy_pages_merged_witness :
    processPdf [PdfEvent.page "A".data, PdfEvent.raise] [PdfEvent.page "B".data]
        [PdfEvent.page "C".data] "scan.pdf".data =
      joinPages ((runStrategy [PdfEvent.page "A".data, PdfEvent.raise] 0).1 ++
        (runStrategy [PdfEvent.page "B".data] 0).1) :=
  C4_failed_strategy_pages_merged _ _ _ _ (by decide) (by decide) (by decide)

/-- C7: when the text layer (PyMuPDF) iterates all pages without raising
and some page yields non-blank text, `process_pdf` returns the joined
strategy-1 page entries (with page-number headers), the result does not
depend on the OCR or PyPDF2 strategies at all (they are never consulted),
and the non-blank page text occurs literally inside the result. -/
theorem C7_text_layer_short_circuit (m1 m2 m3 m2x m3x : List PdfEvent)
    (fn t : List Char) (hnr : noRaise m1 = true) (hmem : PdfEvent.page t ∈ m1)
    (hnb : isBlank t = false) :
    processPdf m1 m2 m3 fn = joinPages (runStrategy m1 0).1 ∧
    processPdf m1 m2 m3 fn = processPdf m1 m2x m3x fn ∧
    t <:+: processPdf m1 m2 m3 fn := by
  have hr2 : (runStrategy m1 0).2 = false := runStrategy_noRaise m1 0 hnr
  obtain ⟨k, hk⟩ := mem_runStrategy_of_page m1 t hmem hnb hnr 0
  have hne : (runStrategy m1 0).1 ≠ [] := by
    intro h
    rw [h] at hk
    cases hk
  have hout : processPdf m1 m2 m3 fn = joinPages (runStrategy m1 0).1 := by
    simp [processPdf, hr2, hne]
  have hout2 : processPdf m1 m2x m3x fn = joinPages (runStrategy m1 0).1 := by
    simp [processPdf, hr2, hne]
  refine ⟨hout, by rw [hout, hout2], ?_⟩
  rw [hout]
  have hsub : t <:+: pageEntry k t :=
    ⟨"Page ".data ++ (toString (k + 1)).data ++ ":\n".data, [], by simp [pageEntry]⟩
  exact hsub.trans (mem_infix_intercalate _ _ _ hk)

/-- Witness for C7: a PDF whose text layer yields
`"Hemoglobin: 9.8 g/dL"` on page 1; varying the OCR and PyPDF2 traces
does not change the result, which contains the literal substring. -/
theorem C7_text_layer_short_circuit_witness :
    processPdf [PdfEvent.page "Hemoglobin: 9.8 g/dL".data]
        [PdfEvent.page "ocr text".data] [] "report.pdf".data =
      joinPages (runStrategy [PdfEvent.page "Hemoglobin: 9.8 g/dL".data] 0).1 ∧
    processPdf [PdfEvent.page "Hemoglobin: 9.8 g/dL".data]
        [PdfEvent.page "ocr text".data] [] "report.pdf".data =
      processPdf [PdfEvent.page "Hemoglobin: 9.8 g/dL".data] [PdfEvent.raise]
        [PdfEvent.page "legacy".data] "report.pdf".data ∧
    "Hemoglobin: 9.8 g/dL".data <:+:
      processPdf [PdfEvent.page "Hemoglobin: 9.8 g/dL".data]
        [PdfEvent.page "ocr text".data] [] "report.pdf".data :=
  C7_text_layer_short_circuit _ _ _ _ _ _ _ (by decide)
    (List.mem_cons_self _ _) (by decide)

/-- Modelled from the spec: the OCR adapter's contract — the returned
text occurs in the candidate list at some position `i`, no candidate is
longer, and every earlier candidate is strictly shorter (ties broken by
attempt order, first attempted wins). -/
def IsLongestFirstWins (cands : List (List Char)) (r : List Char) : Prop :=
  ∃ i, ∃ hi : i < cands.length, cands.get ⟨i, hi⟩ = r ∧
    (∀ c ∈ cands, c.length ≤ r.length) ∧
    (∀ j, ∀ hj : j < cands.length, j < i → (cands.get ⟨j, hj⟩).length < r.length)

theorem foldl_firstMax_spec (tl : List (List Char)) : ∀ h : List Char,
    IsLongestFirstWins (h :: tl)
      (tl.foldl (fun best c => if c.length > best.length then c else best) h) := by
  induction tl with
  | nil =>
    intro h
    exact ⟨0, by simp, rfl, by simp, fun j hj hj0 => absurd hj0 (by omega)⟩
  | cons c rest ih =>
    intro h
    by_cases hc : c.length > h.length
    · obtain ⟨i, hi, heq, hmax, hfirst⟩ := ih c
      have hstep : (c :: rest).foldl
          (fun best d => if d.length > best.length then d else best) h =
          rest.foldl (fun best d => if d.length > best.length then d else best) c := by
        simp [hc]
      rw [hstep]
      refine ⟨i + 1, by simpa using hi, heq, ?_, ?_⟩
      · intro x hx
        rcases List.mem_cons.mp hx with hx | hx
        · subst hx
          calc x.length ≤ c.length := le_of_lt hc
            _ ≤ _ := hmax c (List.mem_cons_self c rest)
        · exact hmax x hx
      · intro j hj hji
        cases j with
        | zero =>
          calc h.length < c.length := hc
            _ ≤ _ := hmax c (List.mem_cons_self c rest)
        | succ j2 =>
          exact hfirst j2 (by simpa using hj) (by omega)
    · obtain ⟨i, hi, heq, hmax, hfirst⟩ := ih h
      have hstep : (c :: rest).foldl
          (fun best d => if d.length > best.length then d else best) h =
          rest.foldl (fun best d => if d.length > best.length then d else best) h := by
        simp [hc]
      rw [hstep]
      have hcle : c.length ≤ h.length := le_of_not_lt hc
      have hhle : h.length ≤
          (rest.foldl (fun best d => if d.length > best.length then d else best) h).length :=
        hmax h (List.mem_cons_self h rest)
      cases i with
      | zero =>
        refine ⟨0, by simp, heq, ?_, fun j hj hj0 => absurd hj0 (by omega)⟩
        intro x hx
        rcases List.mem_cons.mp hx with hx | hx
        · rw [hx]; exact hmax h (List.mem_cons_self h rest)
        · rcases List.mem_cons.mp hx with hx | hx
          · rw [hx]; exact le_trans hcle hhle
          · exact hmax x (List.mem_cons_of_mem h hx)
      | succ i2 =>
        have hlen : i2 + 2 < (h :: c :: rest).length := by
          simp only [List.length_cons] at hi ⊢
          omega
        refine ⟨i2 + 2, hlen, heq, ?_, ?_⟩
        · intro x hx
          rcases List.mem_cons.mp hx with hx | hx
          · rw [hx]; exact hmax h (List.mem_cons_self h rest)
          · rcases List.mem_cons.mp hx with hx | hx
            · rw [hx]; exact le_trans hcle hhle
            · exact hmax x (List.mem_cons_of_mem h hx)
        · intro j hj hji
          have hh0 : h.length <
              (rest.foldl (fun best d => if d.length > best.length then d else best) h).length :=
            hfirst 0 (by simp) (by omega)
          cases j with
          | zero => exact hh0
          | succ j2 =>
            cases j2 with
            | zero => exact lt_of_le_of_lt hcle hh0
            | succ j3 =>
              exact hfirst (j3 + 1) (by simp only [List.length_cons] at hj ⊢; omega)
                (by omega)

theorem firstMaxByLen_spec (cands : List (List Char)) (h : cands ≠ []) :
    IsLongestFirstWins cands (firstMaxByLen cands) := by
  cases cands with
  | nil => exact absurd rfl h
  | cons a tl => exact foldl_firstMax_spec tl a

theorem candidateList_nonblank (e : EasyOutcome) (t : TessOutcome) :
    ∀ x ∈ candidateList e t, isBlank x = false := by
  intro x hx
  rw [candidateList, List.mem_append] at hx
  rcases hx with hx | hx
  · cases e with
    | unavailable => simp [easyCandidates] at hx
    | err => simp [easyCandidates] at hx
    | ok regions =>
      by_cases hb : isBlank (easyText regions)
      · simp [easyCandidates, hb] at hx
      · simp only [easyCandidates, if_neg hb, List.mem_singleton] at hx
        rw [hx]
        simpa using hb
  · cases t with
    | err => simp [tessCandidates] at hx
    | ok text =>
      by_cases hb : isBlank text
      · simp [tessCandidates, hb] at hx
      · simp only [tessCandidates, if_neg hb, List.mem_singleton] at hx
        rw [hx]
        simpa using hb

theorem blank_nil : isBlank ([] : List Char) = true := rfl

/-- C8: the OCR adapter returns the longest non-blank candidate, first
attempted wins on ties; it returns the empty string exactly when no engine
produced a non-blank candidate; the EasyOCR candidate, when present, heads
the candidate list and is the space-join of exactly the regions with
confidence strictly above 0.5; an EasyOCR failure does not prevent the
Tesseract candidate from being returned. -/
theorem C8_ocr_longest_candidate (e : EasyOutcome) (t : TessOutcome) :
    (extractTextFromImage e t = [] ↔ candidateList e t = []) ∧
    (candidateList e t ≠ [] →
      IsLongestFirstWins (candidateList e t) (extractTextFromImage e t)) ∧
    (∀ regions, isBlank (easyText regions) = false →
      (candidateList (EasyOutcome.ok regions) t).head? = some (easyText regions)) ∧
    (∀ tx, isBlank tx = false →
      extractTextFromImage EasyOutcome.err (TessOutcome.ok tx) = tx) := by
  refine ⟨?_, ?_, ?_, ?_⟩
  · constructor
    · intro hnil
      by_contra hne
      obtain ⟨i, hi, heq, hmax, hfirst⟩ := firstMaxByLen_spec _ hne
      have hmem : extractTextFromImage e t ∈ candidateList e t := by
        show firstMaxByLen (candidateList e t) ∈ candidateList e t
        rw [← heq]
        exact List.get_mem _ _ _
      have hnb := candidateList_nonblank e t _ hmem
      rw [hnil] at hnb
      exact absurd hnb (by decide)
    · intro hnil
      simp [extractTextFromImage, hnil, firstMaxByLen]
  · intro hne
    exact firstMaxByLen_spec _ hne
  · intro regions hb
    simp [candidateList, easyCandidates, hb]
  · intro tx hb
    simp [extractTextFromImage, candidateList, easyCandidates, tessCandidates, hb,
          firstMaxByLen]

/-- Witness for C8: EasyOCR yields two regions, one below the confidence
threshold; Tesseract yields a longer text and wins; with EasyOCR failing,
the Tesseract candidate is returned. -/
theorem C8_ocr_longest_candidate_witness :
    (candidateList (EasyOutcome.ok [("Hb 9.8".data, 9/10), ("noise".data, 2/5)])
        (TessOutcome.ok "Hemoglobin 9.8 g/dL".data) ≠ [] →
      IsLongestFirstWins
        (candidateList (EasyOutcome.ok [("Hb 9.8".data, 9/10), ("noise".data, 2/5)])
          (TessOutcome.ok "Hemoglobin 9.8 g/dL".data))
        (extractTextFromImage
          (EasyOutcome.ok [("Hb 9.8".data, 9/10), ("noise".data, 2/5)])
          (TessOutcome.ok "Hemoglobin 9.8 g/dL".data))) ∧
    extractTextFromImage EasyOutcome.err (TessOutcome.ok "fallback engine text".data) =
      "fallback engine text".data :=
  ⟨(C8_ocr_longest_candidate _ _).2.1,
   (C8_ocr_longest_candidate EasyOutcome.err
      (TessOutcome.ok "fallback engine text".data)).2.2.2 _ (by decide)⟩

theorem processImage_ne_nil (inp : ImageInput) (fn : List Char) :
    processImage inp fn ≠ [] := by
  cases inp with
  | loadFail msg => simp [processImage]
  | loaded e1 t1 e2 t2 =>
    simp only [processImage]
    split_ifs with h1 h2 <;> simp_all

theorem processDocx_ne_nil (inp : DocxInput) (fn : List Char) :
    processDocx inp fn ≠ [] := by
  cases inp with
  | fail msg => simp [processDocx]
  | ok paras =>
    simp only [processDocx]
    split_ifs with h <;> simp_all

theorem processPdf_ne_nil (m1 m2 m3 : List PdfEvent) (fn : List Char) :
    processPdf m1 m2 m3 fn ≠ [] := by
  have e1 := runStrategy_entry_ne_nil m1 0
  have e2 := runStrategy_entry_ne_nil m2 0
  have e3 := runStrategy_entry_ne_nil m3 0
  simp only [processPdf]
  split_ifs with h1 h2 h3
  · exact joinPages_ne_nil _ h1.2 e1
  · refine joinPages_ne_nil _ h2.2 ?_
    intro x hx
    rcases List.mem_append.mp hx with hx | hx
    · exact e1 x hx
    · exact e2 x hx
  · refine joinPages_ne_nil _ h3.2 ?_
    intro x hx
    rcases List.mem_append.mp hx with hx | hx
    · rcases List.mem_append.mp hx with hx | hx
      · exact e1 x hx
      · exact e2 x hx
    · exact e3 x hx
  · simp

/-- C5 counterexample: for `text/plain` content the decoded bytes are
returned verbatim, so an empty (or whitespace-decoding-to-empty) file
yields the empty string — a terminal outcome of `process_file` that is
empty, contradicting the claim that every input yields a non-empty
string. -/
theorem C5_counterexample :
    processFile ⟨[], ImageInput.loadFail [], [], [], [], DocxInput.fail []⟩
      "empty.txt".data "text/plain".data = [] := by
  decide

/-- C5 (amended): `process_file` is total (every external failure is a
caught outcome) and returns the `[UNSUPPORTED]` sentinel naming the file
for every unmapped content type; every branch except `text/plain` returns
a non-empty string; `text/plain` returns the decoded bytes verbatim,
which may be empty. -/
theorem C5_nonempty_except_plain (job : FileJob) (fn ct : List Char)
    (hplain : ct ≠ "text/plain".data) :
    processFile job fn ct ≠ [] ∧
    ("image/".data.isPrefixOf ct = false →
      ct ∉ ["application/pdf".data, "application/msword".data,
        "application/vnd.openxmlformats-officedocument.wordprocessingml.document".data] →
      processFile job fn ct =
        "[UNSUPPORTED] ".data ++ fn ++ " - File type not supported for processing".data) ∧
    processFile job fn "text/plain".data = job.content := by
  refine ⟨?_, ?_, ?_⟩
  · simp only [processFile]
    split_ifs with h1 h2 h3
    · exact processImage_ne_nil job.img fn
    · exact processPdf_ne_nil job.m1 job.m2 job.m3 fn
    · exact processDocx_ne_nil job.docx fn
    · simp
  · intro himg hmem
    simp only [processFile]
    rw [if_neg (by simp [himg]), if_neg (by simp at hmem; exact hmem.1),
        if_neg ?_, if_neg hplain]
    rintro (h | h) <;> simp [h] at hmem
  · have himg : "image/".data.isPrefixOf "text/plain".data = false := by decide
    simp [processFile, himg]

/-- Witness for C5: for an unknown binary content type the result is the
`[UNSUPPORTED]` sentinel, hence non-empty; the plain-text branch returns
the decoded content. -/
theorem C5_nonempty_except_plain_witness :
    processFile ⟨"hello".data, ImageInput.loadFail [], [], [], [], DocxInput.fail []⟩
        "scan.bin".data "application/unknown-binary".data ≠ [] ∧
    ("image/".data.isPrefixOf "application/unknown-binary".data = false →
      "application/unknown-binary".data ∉ ["application/pdf".data,
        "application/msword".data,
        "application/vnd.openxmlformats-officedocument.wordprocessingml.document".data] →
      processFile ⟨"hello".data, ImageInput.loadFail [], [], [], [], DocxInput.fail []⟩
          "scan.bin".data "application/unknown-binary".data =
        "[UNSUPPORTED] ".data ++ "scan.bin".data ++
          " - File type not supported for processing".data) ∧
    processFile ⟨"hello".data, ImageInput.loadFail [], [], [], [], DocxInput.fail []⟩
        "scan.bin".data "text/plain".data =
      (FileJob.mk "hello".data (ImageInput.loadFail []) [] [] [] (DocxInput.fail [])).content :=
  C5_nonempty_except_plain _ _ _ (by decide)

/-! ## The `/analyze/file` endpoint (app.py lines 260-332) -/

/-- Python `os.path.splitext(filename)[1]` for an uploaded basename: the suffix
from the last dot, unless every character before that dot is itself a dot
(so `".bashrc"` and `"..b"` have no extension). -/
def extOf (fn : List Char) : List Char :=
  let pre := fn.reverse.takeWhile (fun c => c ≠ '.')
  if pre.length = fn.length then []
  else if (fn.reverse.drop (pre.length + 1)).all (fun c => c = '.') then []
  else '.' :: pre.reverse

/-- The `allowed_extensions` set at app.py line 283 (listed here in the
literal's order; the endpoint only tests membership). -/
def allowedExtensions : List (List Char) :=
  [".txt".data, ".pdf".data, ".doc".data, ".docx".data]

/-- The `/analyze/file` endpoint (app.py lines 260-332).  `scan` stands
for the document-extraction pipeline of `scanner_processor.py`: app.py
never imports that module, so the handler ignores the parameter entirely
(the theorems below make that independence explicit).  `content` is the
outcome of `file.read().decode(utf-8)` (strict decode: may raise, which
the handler at line 326 turns into a 500 reply); it is only consulted in
the `.txt` branch.  `allowedJoin` is the comma-join of allowed_extensions,
whose ordering Python's set iteration leaves unspecified. -/
def analyzeFileEndpoint (scan : List Char → List Char)
    (loads : List Char → Option Json) (backend : Except (List Char) (List Char))
    (hasFile : Bool) (filename : List Char) (content : Except Unit (List Char))
    (ts allowedJoin : List Char) : HttpReply :=
  if hasFile = false then ⟨400, "error".data, some "No file provided".data, none⟩
  else if filename = [] then ⟨400, "error".data, some "No file selected".data, none⟩
  else
    let ext := (extOf filename).map Char.toLower
    if ext ∉ allowedExtensions then
      ⟨400, "error".data,
       some ("File type ".data ++ ext ++ " not supported. Allowed types: ".data ++
         allowedJoin), none⟩
    else if ext ≠ ".txt".data then
      ⟨400, "error".data,
       some ("File type ".data ++ ext ++
         " processing not implemented yet. Please use .txt files.".data), none⟩
    else
      match content with
      | .error _ =>
        ⟨500, "error".data,
         some "Internal server error occurred while analyzing the file".data, none⟩
      | .ok c =>
        if isBlank c then ⟨400, "error".data, some "File is empty".data, none⟩
        else
          match analyzeReport loads backend c filename with
          | .error _ =>
            ⟨500, "error".data,
             some "Internal server error occurred while analyzing the file".data, none⟩
          | .ok j => ⟨200, "success".data, none, some (addMetadata j filename ts c.length)⟩

/-- C10: an upload whose (lowercased) extension is `.pdf`, `.doc` or
`.docx` — all listed as allowed — is answered with the 400
`processing not implemented yet` error without the content ever being
read or analyzed (the reply is a constant over every backend, decoder,
content and scanner behaviour); moreover for every upload whose extension
is not `.txt` the reply is independent of the analyzer, the content and
the document-extraction pipeline, which no branch of the handler ever
invokes. -/
theorem C10_file_endpoint_not_implemented (scan scan2 : List Char → List Char)
    (loads loads2 : List Char → Option Json)
    (backend backend2 : Except (List Char) (List Char)) (fn : List Char)
    (content content2 : Except Unit (List Char)) (ts aj : List Char)
    (h : (extOf fn).map Char.toLower ∈ [".pdf".data, ".doc".data, ".docx".data]) :
    analyzeFileEndpoint scan loads backend true fn content ts aj =
      ⟨400, "error".data,
       some ("File type ".data ++ (extOf fn).map Char.toLower ++
         " processing not implemented yet. Please use .txt files.".data), none⟩ ∧
    (∀ fn2 : List Char, ∀ hasFile : Bool,
      (extOf fn2).map Char.toLower ≠ ".txt".data →
      analyzeFileEndpoint scan loads backend hasFile fn2 content ts aj =
        analyzeFileEndpoint scan2 loads2 backend2 hasFile fn2 content2 ts aj) := by
  constructor
  · have hfn : fn ≠ [] := by
      intro hh
      rw [hh] at h
      exact absurd h (by decide)
    simp only [List.mem_cons, List.not_mem_nil, or_false] at h
    rcases h with h1 | h1 | h1 <;>
    · have hmem : List.map Char.toLower (extOf fn) ∈ allowedExtensions := by
        rw [h1]; decide
      have hne : ¬ (List.map Char.toLower (extOf fn) = ".txt".data) := by
        rw [h1]; decide
      simp [analyzeFileEndpoint, hfn, hmem, hne]
  · intro fn2 hasFile ht
    cases hasFile with
    | false => simp [analyzeFileEndpoint]
    | true =>
      by_cases hf : fn2 = []
      · simp [analyzeFileEndpoint, hf]
      · by_cases hmem : (extOf fn2).map Char.toLower ∈ allowedExtensions
        · simp [analyzeFileEndpoint, hf, hmem, ht]
        · simp [analyzeFileEndpoint, hf, hmem]

/-- Witness for C10: an uploaded `scan.pdf` is refused with the
not-implemented error, and uploads with non-`.txt` extensions are
answered independently of analyzer, content and scanner behaviours. -/
theorem C10_file_endpoint_not_implemented_witness :
    analyzeFileEndpoint (fun l => l) (fun _ => none)
        (Except.ok "reply".data) true "scan.pdf".data (Except.ok "data".data)
        "2026-10-12T12:00:00".data ".txt, .pdf, .doc, .docx".data =
      ⟨400, "error".data,
       some ("File type ".data ++ (extOf "scan.pdf".data).map Char.toLower ++
         " processing not implemented yet. Please use .txt files.".data), none⟩ ∧
    (∀ fn2 : List Char, ∀ hasFile : Bool,
      (extOf fn2).map Char.toLower ≠ ".txt".data →
      analyzeFileEndpoint (fun l => l) (fun _ => none) (Except.ok "reply".data)
          hasFile fn2 (Except.ok "data".data)
          "2026-10-12T12:00:00".data ".txt, .pdf, .doc, .docx".data =
        analyzeFileEndpoint (fun _ => []) (fun _ => some Json.null)
          (Except.error "down".data) hasFile fn2 (Except.error ())
          "2026-10-12T12:00:00".data ".txt, .pdf, .doc, .docx".data) :=
  C10_file_endpoint_not_implemented (fun l => l) (fun _ => []) (fun _ => none)
    (fun _ => some Json.null) (Except.ok "reply".data) (Except.error "down".data)
    "scan.pdf".data (Except.ok "data".data) (Except.error ())
    "2026-10-12T12:00:00".data ".txt, .pdf, .doc, .docx".data (by decide)

/-! ## Code-fence stripping (claim C9): string lemmas -/

theorem subLit_cons_ws (p : Char) (ps : List Char) (c : Char) (l : List Char)
    (hp : isPySpace p = false) (hc : isPySpace c = true) :
    subLit p ps (c :: l) = c :: subLit p ps l := by
  apply subLit_neg
  show ((p == c) && ps.isPrefixOf l) = false
  have hne : (p == c) = false := by
    rw [beq_eq_false_iff_ne]
    intro h
    rw [h, hc] at hp
    cases hp
  rw [hne]
  rfl

theorem subLit_ws_append (p : Char) (ps : List Char) (hp : isPySpace p = false) :
    ∀ (w l : List Char), w.all isPySpace = true →
    subLit p ps (w ++ l) = w ++ subLit p ps l := by
  intro w
  induction w with
  | nil => intro l _; rfl
  | cons c cs ih =>
    intro l hw
    rw [List.all_cons, Bool.and_eq_true] at hw
    rw [List.cons_append, subLit_cons_ws p ps c _ hp hw.1, ih l hw.2]
    rfl

theorem subLit_id_of_short (p : Char) (ps : List Char) :
    ∀ l : List Char, l.length < ps.length + 1 → subLit p ps l = l := by
  intro l
  induction l with
  | nil => intro _; exact subLit_nil p ps
  | cons c cs ih =>
    intro hlen
    have htest : (p :: ps).isPrefixOf (c :: cs) = false := by
      cases ht : (p :: ps).isPrefixOf (c :: cs) with
      | false => rfl
      | true =>
        exfalso
        have hpre : (p :: ps) <+: (c :: cs) := ( List.isPrefixOf_iff_prefix).mp ht
        have hle := hpre.length_le
        simp only [List.length_cons] at hle hlen
        omega
    rw [subLit_neg p ps c cs htest,
        ih (by simp only [List.length_cons] at hlen ⊢; omega)]

/-- The literal pattern cannot match across the boundary into a region
that starts with a whitespace character, because none of its characters
is whitespace. -/
theorem isPrefixOf_append_ws_head (p : Char) (ps : List Char)
    (hpat : ∀ ch ∈ p :: ps, isPySpace ch = false)
    (xs : List Char) (hxs : (p :: ps).isPrefixOf xs = false)
    (c : Char) (hc : isPySpace c = true) (zz : List Char) :
    (p :: ps).isPrefixOf (xs ++ c :: zz) = false := by
  cases ht : (p :: ps).isPrefixOf (xs ++ c :: zz) with
  | false => rfl
  | true =>
    exfalso
    have hpre : (p :: ps) <+: xs ++ c :: zz := ( List.isPrefixOf_iff_prefix).mp ht
    obtain ⟨r, hr⟩ := hpre
    by_cases hlen : ps.length + 1 ≤ xs.length
    · have h1 : ((p :: ps) ++ r).take (ps.length + 1) = p :: ps :=
        List.take_left' (by simp)
      rw [hr, List.take_append_of_le_length hlen] at h1
      have hpx : (p :: ps) <+: xs :=
        ⟨xs.drop (ps.length + 1), by rw [← h1]; exact List.take_append_drop _ _⟩
      have hT := ( List.isPrefixOf_iff_prefix).mpr hpx
      rw [hxs] at hT
      cases hT
    · push_neg at hlen
      have h1 : ((p :: ps) ++ r).take (ps.length + 1) = p :: ps :=
        List.take_left' (by simp)
      rw [hr, List.take_append_eq_append_take,
          List.take_of_length_le (le_of_lt hlen)] at h1
      have hcm : c ∈ p :: ps := by
        rw [← h1]
        refine List.mem_append.mpr (Or.inr ?_)
        cases hk : ps.length + 1 - xs.length with
        | zero => exact absurd hk (by omega)
        | succ k =>
          rw [List.take_succ_cons]
          exact List.mem_cons_self _ _
      have hws := hpat c hcm
      rw [hc] at hws
      cases hws

theorem dropWhile_ws_append_of_ne (a b : List Char)
    (h : a.dropWhile isPySpace ≠ []) :
    (a ++ b).dropWhile isPySpace = a.dropWhile isPySpace ++ b := by
  rw [List.dropWhile_append]
  rw [if_neg (by simpa using h)]

theorem dropWhile_ws_append_of_all (a b : List Char) (h : a.all isPySpace = true) :
    (a ++ b).dropWhile isPySpace = b.dropWhile isPySpace :=
  List.dropWhile_append_of_pos (by rw [List.all_eq_true] at h; exact h)

theorem dropWhile_head_not_ws (l : List Char) (c : Char) (cs : List Char)
    (h : l.dropWhile isPySpace = c :: cs) : isPySpace c = false := by
  induction l with
  | nil => cases h
  | cons a t ih =>
    rw [List.dropWhile_cons] at h
    by_cases ha : isPySpace a
    · rw [if_pos ha] at h; exact ih h
    · rw [if_neg ha] at h
      injection h with h1 h2
      rw [← h1]
      simpa using ha

theorem pyLStrip_cons_not_ws (c : Char) (l : List Char) (h : isPySpace c = false) :
    pyLStrip (c :: l) = c :: l := by
  simp [pyLStrip, List.dropWhile_cons, h]

theorem pyRStrip_append_not_ws (l : List Char) (c : Char) (h : isPySpace c = false) :
    pyRStrip (l ++ [c]) = l ++ [c] := by
  simp [pyRStrip, List.reverse_append, List.dropWhile_cons, h]

theorem pyRStrip_append_ws (x w : List Char) (hw : w.all isPySpace = true) :
    pyRStrip (x ++ w) = pyRStrip x := by
  have hrev : w.reverse.all isPySpace = true := by
    rw [List.all_eq_true] at hw ⊢
    intro a ha
    exact hw a (List.mem_reverse.mp ha)
  unfold pyRStrip
  rw [List.reverse_append, dropWhile_ws_append_of_all _ _ hrev]

theorem rstrip_decomp (l : List Char) :
    ∃ w, w.all isPySpace = true ∧ l = pyRStrip l ++ w := by
  refine ⟨(l.reverse.takeWhile isPySpace).reverse, ?_, ?_⟩
  · rw [List.all_eq_true]
    intro x hx
    exact List.mem_takeWhile_imp (List.mem_reverse.mp hx)
  · have h0 : l.reverse.takeWhile isPySpace ++ l.reverse.dropWhile isPySpace =
        l.reverse := List.takeWhile_append_dropWhile isPySpace l.reverse
    calc l = l.reverse.reverse := (List.reverse_reverse l).symm
      _ = (l.reverse.takeWhile isPySpace ++ l.reverse.dropWhile isPySpace).reverse := by
          rw [h0]
      _ = (l.reverse.dropWhile isPySpace).reverse ++
            (l.reverse.takeWhile isPySpace).reverse := by rw [List.reverse_append]
      _ = pyRStrip l ++ (l.reverse.takeWhile isPySpace).reverse := rfl

theorem subLit_pos' (p : Char) (ps : List Char) (xs : List Char)
    (h : (p :: ps).isPrefixOf xs = true) :
    subLit p ps xs = subLit p ps ((xs.drop (ps.length + 1)).dropWhile isPySpace) := by
  cases xs with
  | nil => cases h
  | cons c cs => exact subLit_pos p ps c cs h

theorem isPrefixOf_append_of_isPrefixOf (p : Char) (ps : List Char) (xs z : List Char)
    (h : (p :: ps).isPrefixOf xs = true) :
    (p :: ps).isPrefixOf (xs ++ z) = true := by
  have hpre : (p :: ps) <+: xs := ( List.isPrefixOf_iff_prefix).mp h
  exact ( List.isPrefixOf_iff_prefix).mpr (hpre.trans (List.prefix_append xs z))

theorem isPrefixOf_length_le (p : Char) (ps : List Char) (xs : List Char)
    (h : (p :: ps).isPrefixOf xs = true) : ps.length + 1 ≤ xs.length := by
  have hpre : (p :: ps) <+: xs := ( List.isPrefixOf_iff_prefix).mp h
  have := hpre.length_le
  simpa using this

/-- Appending an all-whitespace tail to the subject changes the
substitution result by at most that same whitespace tail: the tail itself
never matches, and the only interaction is a trailing match of the
pattern whose greedy `\s*` swallows the tail. -/
theorem subLit_append_ws (p : Char) (ps : List Char)
    (hpat : ∀ ch ∈ p :: ps, isPySpace ch = false) :
    ∀ (n : ℕ) (xs : List Char), xs.length < n →
    ∀ w : List Char, w.all isPySpace = true →
    subLit p ps (xs ++ w) = subLit p ps xs ++ w ∨
    subLit p ps (xs ++ w) = subLit p ps xs := by
  intro n
  induction n with
  | zero => intro xs h; exact absurd h (by omega)
  | succ n ih =>
    intro xs hxs w hw
    by_cases hw0 : w = []
    · right
      rw [hw0, List.append_nil]
    · obtain ⟨c, zz, rfl⟩ : ∃ c zz, w = c :: zz := by
        cases w with
        | nil => exact absurd rfl hw0
        | cons c zz => exact ⟨c, zz, rfl⟩
      have hc : isPySpace c = true := by
        rw [List.all_cons, Bool.and_eq_true] at hw
        exact hw.1
      cases xs with
      | nil =>
        left
        rw [List.nil_append, subLit_nil, List.nil_append]
        have h2 := subLit_ws_append p ps (hpat p (List.mem_cons_self p ps))
          (c :: zz) [] hw
        rw [List.append_nil, subLit_nil, List.append_nil] at h2
        exact h2
      | cons x xsT =>
        cases htb : (p :: ps).isPrefixOf (x :: xsT) with
        | true =>
          have hlen := isPrefixOf_length_le p ps _ htb
          have hT : (p :: ps).isPrefixOf ((x :: xsT) ++ c :: zz) = true :=
            isPrefixOf_append_of_isPrefixOf p ps _ _ htb
          rw [subLit_pos' p ps _ hT, subLit_pos' p ps _ htb]
          rw [List.drop_append_of_le_length hlen]
          set t := (x :: xsT).drop (ps.length + 1) with htdef
          have htlen : t.length < n := by
            have h1 : t.length = (x :: xsT).length - (ps.length + 1) := by
              rw [htdef]; exact List.length_drop _ _
            simp only [List.length_cons] at h1 hxs
            omega
          cases ht' : t.dropWhile isPySpace with
          | nil =>
            right
            have hall : t.all isPySpace = true := by
              rw [List.all_eq_true]
              exact (List.dropWhile_eq_nil_iff).mp ht'
            have hwnil : (c :: zz).dropWhile isPySpace = [] := by
              rw [List.dropWhile_eq_nil_iff]
              rw [List.all_eq_true] at hw
              exact hw
            rw [dropWhile_ws_append_of_all t _ hall, hwnil]
          | cons c2 cs2 =>
            have hne : t.dropWhile isPySpace ≠ [] := by rw [ht']; simp
            rw [dropWhile_ws_append_of_ne t _ hne, ht']
            have hlt : (c2 :: cs2).length < n := by
              have h2 := length_dropWhile_le isPySpace t
              rw [ht'] at h2
              omega
            exact ih (c2 :: cs2) hlt (c :: zz) hw
        | false =>
          have hspan : (p :: ps).isPrefixOf ((x :: xsT) ++ c :: zz) = false :=
            isPrefixOf_append_ws_head p ps hpat (x :: xsT) htb c hc zz
          rw [List.cons_append] at hspan
          rw [List.cons_append, subLit_neg p ps x _ hspan, subLit_neg p ps x xsT htb]
          have hlt : xsT.length < n := by
            simp only [List.length_cons] at hxs
            omega
          rcases ih xsT hlt (c :: zz) hw with h2 | h2
          · left
            rw [h2, List.cons_append]
          · right
            rw [h2]

/-- Appending a whitespace run, a newline and a short non-whitespace
literal (the closing fence) to the subject: the literal is inert for a
longer pattern, so the result changes by the whole appended tail, or —
when the subject ends in a pattern match whose greedy `\s*` swallows the
whitespace and newline — by just the literal. -/
theorem subLit_append_ws_tail (p : Char) (ps : List Char)
    (hpat : ∀ ch ∈ p :: ps, isPySpace ch = false)
    (lit : List Char) (l0 : Char) (lr : List Char) (hlit : lit = l0 :: lr)
    (hl0 : isPySpace l0 = false) (hshort : lit.length < ps.length + 1) :
    ∀ (n : ℕ) (xs : List Char), xs.length < n →
    ∀ w : List Char, w.all isPySpace = true →
    subLit p ps (xs ++ (w ++ '\n' :: lit)) = subLit p ps xs ++ (w ++ '\n' :: lit) ∨
    subLit p ps (xs ++ (w ++ '\n' :: lit)) = subLit p ps xs ++ lit := by
  intro n
  induction n with
  | zero => intro xs h; exact absurd h (by omega)
  | succ n ih =>
    intro xs hxs w hw
    cases xs with
    | nil =>
      left
      rw [List.nil_append, subLit_nil, List.nil_append]
      have h1 : subLit p ps (w ++ '\n' :: lit) = w ++ subLit p ps ('\n' :: lit) :=
        subLit_ws_append p ps (hpat p (List.mem_cons_self p ps)) w ('\n' :: lit) hw
      have h2 : subLit p ps ('\n' :: lit) = '\n' :: subLit p ps lit :=
        subLit_cons_ws p ps '\n' lit (hpat p (List.mem_cons_self p ps)) (by decide)
      rw [h1, h2, subLit_id_of_short p ps lit hshort]
    | cons x xsT =>
      cases htb : (p :: ps).isPrefixOf (x :: xsT) with
      | true =>
        have hlen := isPrefixOf_length_le p ps _ htb
        have hT : (p :: ps).isPrefixOf ((x :: xsT) ++ (w ++ '\n' :: lit)) = true :=
          isPrefixOf_append_of_isPrefixOf p ps _ _ htb
        rw [subLit_pos' p ps _ hT, subLit_pos' p ps _ htb,
            List.drop_append_of_le_length hlen]
        set t := (x :: xsT).drop (ps.length + 1) with htdef
        cases ht' : t.dropWhile isPySpace with
        | nil =>
          right
          have hall : t.all isPySpace = true := by
            rw [List.all_eq_true]
            exact (List.dropWhile_eq_nil_iff).mp ht'
          have hz : (w ++ '\n' :: lit).dropWhile isPySpace = lit := by
            rw [dropWhile_ws_append_of_all w _ hw,
                List.dropWhile_cons_of_pos (by decide), hlit,
                List.dropWhile_cons_of_neg (by simp [hl0])]
          rw [dropWhile_ws_append_of_all t _ hall, hz,
              subLit_id_of_short p ps lit hshort, subLit_nil, List.nil_append]
        | cons c2 cs2 =>
          have hne : t.dropWhile isPySpace ≠ [] := by rw [ht']; simp
          rw [dropWhile_ws_append_of_ne t _ hne, ht']
          have hlt : (c2 :: cs2).length < n := by
            have h2 := length_dropWhile_le isPySpace t
            rw [ht'] at h2
            have h3 : t.length = (x :: xsT).length - (ps.length + 1) := by
              rw [htdef]; exact List.length_drop _ _
            simp only [List.length_cons] at h3 hxs
            omega
          exact ih (c2 :: cs2) hlt w hw
      | false =>
        have hspan : (p :: ps).isPrefixOf ((x :: xsT) ++ (w ++ '\n' :: lit)) = false := by
          cases w with
          | nil =>
            have := isPrefixOf_append_ws_head p ps hpat (x :: xsT) htb '\n'
              (by decide) lit
            simpa using this
          | cons cw ws2 =>
            have hcw : isPySpace cw = true := by
              rw [List.all_cons, Bool.and_eq_true] at hw
              exact hw.1
            have := isPrefixOf_append_ws_head p ps hpat (x :: xsT) htb cw hcw
              (ws2 ++ '\n' :: lit)
            simpa using this
        rw [List.cons_append] at hspan
        rw [List.cons_append, subLit_neg p ps x _ hspan, subLit_neg p ps x xsT htb]
        have hlt : xsT.length < n := by
          simp only [List.length_cons] at hxs
          omega
        rcases ih xsT hlt w hw with h2 | h2
        · left
          rw [h2, List.cons_append]
        · right
          rw [h2, List.cons_append]

theorem subFence_fence : subFence fence = [] := by
  show subLit btick "``".data fence = []
  rw [subLit_pos' btick "``".data fence (by decide)]
  have h1 : (fence.drop ("``".data.length + 1)).dropWhile isPySpace = [] := by decide
  rw [h1, subLit_nil]

theorem subFence_tick1 : subFence [btick] = [btick] := by
  show subLit btick "``".data [btick] = [btick]
  rw [subLit_neg btick "``".data btick [] (by decide), subLit_nil]

theorem subFence_tick2 : subFence [btick, btick] = [btick, btick] := by
  show subLit btick "``".data [btick, btick] = [btick, btick]
  rw [subLit_neg btick "``".data btick [btick] (by decide),
      subLit_neg btick "``".data btick [] (by decide), subLit_nil]

theorem subFence_tick4 : subFence [btick, btick, btick, btick] = [btick] := by
  show subLit btick "``".data [btick, btick, btick, btick] = [btick]
  rw [subLit_pos' btick "``".data _ (by decide)]
  have h1 : (([btick, btick, btick, btick] : List Char).drop
      ("``".data.length + 1)).dropWhile isPySpace = [btick] := by decide
  rw [h1, subLit_neg btick "``".data btick [] (by decide), subLit_nil]

theorem subFence_tick5 : subFence [btick, btick, btick, btick, btick] = [btick, btick] := by
  show subLit btick "``".data [btick, btick, btick, btick, btick] = [btick, btick]
  rw [subLit_pos' btick "``".data _ (by decide)]
  have h1 : (([btick, btick, btick, btick, btick] : List Char).drop
      ("``".data.length + 1)).dropWhile isPySpace = [btick, btick] := by decide
  rw [h1, subLit_neg btick "``".data btick [btick] (by decide),
      subLit_neg btick "``".data btick [] (by decide), subLit_nil]

/-- Appending one closing `` ``` `` fence to the subject of the
`` ```\s* `` substitution never changes the result: the appended fence is
always deleted, possibly merging with backticks already at the end of the
subject. -/
theorem subFence_append_fence : ∀ (n : ℕ) (ys : List Char), ys.length < n →
    subFence (ys ++ fence) = subFence ys := by
  intro n
  induction n with
  | zero => intro ys h; exact absurd h (by omega)
  | succ n ih =>
    intro ys hys
    show subLit btick "``".data (ys ++ fence) = subLit btick "``".data ys
    cases ys with
    | nil =>
      rw [List.nil_append, subLit_nil]
      exact subFence_fence
    | cons y ysT =>
      cases htb : (btick :: "``".data).isPrefixOf (y :: ysT) with
      | true =>
        have hlen := isPrefixOf_length_le btick "``".data _ htb
        have hT : (btick :: "``".data).isPrefixOf ((y :: ysT) ++ fence) = true :=
          isPrefixOf_append_of_isPrefixOf btick "``".data _ _ htb
        rw [subLit_pos' btick "``".data _ hT, subLit_pos' btick "``".data _ htb,
            List.drop_append_of_le_length hlen]
        set t := (y :: ysT).drop ("``".data.length + 1) with htdef
        cases ht' : t.dropWhile isPySpace with
        | nil =>
          have hall : t.all isPySpace = true := by
            rw [List.all_eq_true]
            exact (List.dropWhile_eq_nil_iff).mp ht'
          have hfd : fence.dropWhile isPySpace = fence := by decide
          rw [dropWhile_ws_append_of_all t _ hall, hfd, subLit_nil]
          exact subFence_fence
        | cons c2 cs2 =>
          have hne : t.dropWhile isPySpace ≠ [] := by rw [ht']; simp
          rw [dropWhile_ws_append_of_ne t _ hne, ht']
          have hlt : (c2 :: cs2).length < n := by
            have h2 := length_dropWhile_le isPySpace t
            rw [ht'] at h2
            have h3 : t.length = (y :: ysT).length - ("``".data.length + 1) := by
              rw [htdef]; exact List.length_drop _ _
            simp only [List.length_cons] at h3 hys
            omega
          exact ih (c2 :: cs2) hlt
      | false =>
        cases htf : (btick :: "``".data).isPrefixOf ((y :: ysT) ++ fence) with
        | false =>
          rw [List.cons_append] at htf
          rw [List.cons_append, subLit_neg btick "``".data y _ htf,
              subLit_neg btick "``".data y ysT htb]
          have hlt : ysT.length < n := by
            simp only [List.length_cons] at hys
            omega
          exact congrArg (fun l => y :: l) (ih ysT hlt)
        | true =>
          have hlen3 : (y :: ysT).length < "``".data.length + 1 := by
            by_contra hge
            push_neg at hge
            obtain ⟨r, hr⟩ := ( List.isPrefixOf_iff_prefix).mp htf
            have h1 : ((btick :: "``".data) ++ r).take ("``".data.length + 1) =
                btick :: "``".data := List.take_left' (by simp)
            rw [hr, List.take_append_of_le_length hge] at h1
            have hpx : (btick :: "``".data) <+: (y :: ysT) :=
              ⟨(y :: ysT).drop ("``".data.length + 1),
               by rw [← h1]; exact List.take_append_drop _ _⟩
            have hb := ( List.isPrefixOf_iff_prefix).mpr hpx
            rw [htb] at hb
            cases hb
          obtain ⟨r, hr⟩ := ( List.isPrefixOf_iff_prefix).mp htf
          have hq : ("``".data : List Char).length = 2 := rfl
          have h2 : ((y :: ysT) ++ fence).take (y :: ysT).length = y :: ysT :=
            List.take_left _ _
          rw [← hr, List.take_append_of_le_length
            (by simp only [List.length_cons, hq] at hlen3 ⊢; omega)] at h2
          have hlast : ysT.length = 0 ∨ ysT.length = 1 := by
            simp only [List.length_cons, hq] at hlen3
            omega
          rcases hlast with h0 | h0
          · have hT0 : ysT = [] := List.length_eq_zero.mp h0
            subst hT0
            have h3 : ([btick] : List Char) = [y] := h2
            injection h3 with hy _
            rw [← hy]
            have e1 : ([btick] : List Char) ++ fence = [btick, btick, btick, btick] := rfl
            rw [e1]
            exact subFence_tick4.trans subFence_tick1.symm
          · obtain ⟨y2, hT2⟩ : ∃ y2, ysT = [y2] := by
              cases ysT with
              | nil => cases h0
              | cons a b =>
                cases b with
                | nil => exact ⟨a, rfl⟩
                | cons a2 b2 => simp at h0
            subst hT2
            have h3 : ([btick, btick] : List Char) = [y, y2] := h2
            injection h3 with hy hrest
            injection hrest with hy2 _
            rw [← hy, ← hy2]
            have e1 : ([btick, btick] : List Char) ++ fence = [btick, btick, btick, btick, btick] := rfl
            rw [e1]
            exact subFence_tick5.trans subFence_tick2.symm

theorem pyStrip_wrap (p : List Char) :
    pyStrip ("```json\n".data ++ p ++ "\n```".data) =
      "```json\n".data ++ p ++ "\n```".data := by
  simp only [pyStrip]
  have hc : "```json\n".data ++ p ++ "\n```".data =
      btick :: ("``json\n".data ++ p ++ "\n```".data) := by simp [btick]
  have h1 : pyLStrip ("```json\n".data ++ p ++ "\n```".data) =
      "```json\n".data ++ p ++ "\n```".data := by
    rw [hc, pyLStrip_cons_not_ws _ _ (by decide)]
  rw [h1]
  have hM : "```json\n".data ++ p ++ "\n```".data =
      ("```json\n".data ++ p ++ "\n``".data) ++ [btick] := by
    simp [List.append_assoc, btick]
  rw [hM, pyRStrip_append_not_ws _ _ (by decide)]

theorem pyStrip_append_ws (s w : List Char) (hw : w.all isPySpace = true) :
    pyStrip (s ++ w) = pyStrip s := by
  simp only [pyStrip, pyLStrip]
  cases hs : s.dropWhile isPySpace with
  | nil =>
    have hsall : s.all isPySpace = true := by
      rw [List.all_eq_true]
      exact (List.dropWhile_eq_nil_iff).mp hs
    rw [dropWhile_ws_append_of_all s _ hsall]
    have hwn : w.dropWhile isPySpace = [] := by
      rw [List.dropWhile_eq_nil_iff]
      rw [List.all_eq_true] at hw
      exact hw
    rw [hwn]
  | cons a b =>
    rw [dropWhile_ws_append_of_ne s _ (by rw [hs]; simp), hs]
    exact pyRStrip_append_ws _ _ hw

/-- The central string fact behind C9: cleaning the fence-wrapped reply
gives

the cleaned bare reply followed by at most a whitespace run (the run
survives when the payload ends in whitespace or the opening fence's
`\s*` interacts; it is gone when a trailing match swallows it). -/
theorem clean_wrap (p : List Char) :
    ∃ w, w.all isPySpace = true ∧
      cleanResponse ("```json\n".data ++ p ++ "\n```".data) =
        cleanResponse p ++ w := by
  have hstrip := pyStrip_wrap p
  have hwrap : "```json\n".data ++ p ++ "\n```".data =
      (btick :: "``json".data) ++ ('\n' :: (p ++ "\n```".data)) := by simp [btick]
  have htest : (btick :: "``json".data).isPrefixOf
      ((btick :: "``json".data) ++ ('\n' :: (p ++ "\n```".data))) = true :=
    isPrefixOf_append_of_isPrefixOf _ _ _ _ (by decide)
  have hdrop : (((btick :: "``json".data) ++
      ('\n' :: (p ++ "\n```".data))).drop ("``json".data.length + 1)) =
      '\n' :: (p ++ "\n```".data) :=
    List.drop_left' (by simp)
  have hF0 : subLit btick "``json".data
      ("```json\n".data ++ p ++ "\n```".data) =
      subLit btick "``json".data ((p ++ "\n```".data).dropWhile isPySpace) := by
    rw [hwrap, subLit_pos' _ _ _ htest, hdrop,
        List.dropWhile_cons_of_pos (by decide)]
  cases hq : p.dropWhile isPySpace with
  | nil =>
    refine ⟨[], rfl, ?_⟩
    have hallp : p.all isPySpace = true := by
      rw [List.all_eq_true]
      exact (List.dropWhile_eq_nil_iff).mp hq
    have h1 : (p ++ "\n```".data).dropWhile isPySpace = fence := by
      rw [dropWhile_ws_append_of_all p _ hallp]
      rw [show ("\n```".data : List Char) = '\n' :: fence from rfl,
          List.dropWhile_cons_of_pos (by decide)]
      decide
    have h2 : pyStrip p = [] := by
      simp only [pyStrip, pyLStrip]
      rw [hq]
      rfl
    show subLit btick "``".data (subLit btick "``json".data
        (pyStrip ("```json\n".data ++ p ++ "\n```".data))) =
      subLit btick "``".data (subLit btick "``json".data (pyStrip p)) ++ []
    rw [hstrip, h2, hF0, h1, subLit_id_of_short btick "``json".data fence (by decide),
        subLit_nil, subLit_nil, List.append_nil]
    exact subFence_fence
  | cons q0 qT =>
    have hq0 : isPySpace q0 = false := dropWhile_head_not_ws p q0 qT hq
    have hdw : (p ++ "\n```".data).dropWhile isPySpace =
        (q0 :: qT) ++ "\n```".data := by
      rw [dropWhile_ws_append_of_ne p _ (by rw [hq]; simp), hq]
    obtain ⟨wr, hwr, hdecomp⟩ := rstrip_decomp (q0 :: qT)
    have hsp : pyStrip p = pyRStrip (q0 :: qT) := by
      simp only [pyStrip, pyLStrip]
      rw [hq]
    have hsplit : (q0 :: qT) ++ "\n```".data =
        pyRStrip (q0 :: qT) ++ (wr ++ '\n' :: fence) := by
      conv_lhs => rw [hdecomp]
      rw [show ("\n```".data : List Char) = '\n' :: fence from rfl]
      simp [List.append_assoc]
    rcases subLit_append_ws_tail btick "``json".data (by decide) fence btick "``".data
        rfl (by decide) (by decide) ((pyRStrip (q0 :: qT)).length + 1)
        (pyRStrip (q0 :: qT)) (Nat.lt_succ_self _) wr hwr with hB | hB
    · -- the appended tail survives the first substitution
      have hWall : (wr ++ ['\n']).all isPySpace = true := by
        rw [List.all_append, Bool.and_eq_true]
        exact ⟨hwr, by decide⟩
      have hassoc : subLit btick "``json".data (pyRStrip (q0 :: qT)) ++
          (wr ++ '\n' :: fence) =
          (subLit btick "``json".data (pyRStrip (q0 :: qT)) ++ (wr ++ ['\n'])) ++
            fence := by
        simp [List.append_assoc]
      rcases subLit_append_ws btick "``".data (by decide)
          ((subLit btick "``json".data (pyRStrip (q0 :: qT))).length + 1)
          (subLit btick "``json".data (pyRStrip (q0 :: qT))) (Nat.lt_succ_self _)
          (wr ++ ['\n']) hWall with hD | hD
      · refine ⟨wr ++ ['\n'], hWall, ?_⟩
        show subLit btick "``".data (subLit btick "``json".data
            (pyStrip ("```json\n".data ++ p ++ "\n```".data))) =
          subLit btick "``".data (subLit btick "``json".data (pyStrip p)) ++
            (wr ++ ['\n'])
        rw [hstrip, hF0, hdw, hsplit, hB, hassoc]
        rw [show (subLit btick "``".data ((subLit btick "``json".data
            (pyRStrip (q0 :: qT)) ++ (wr ++ ['\n'])) ++ fence)) =
          subFence ((subLit btick "``json".data
            (pyRStrip (q0 :: qT)) ++ (wr ++ ['\n'])) ++ fence) from rfl]
        rw [subFence_append_fence ((subLit btick "``json".data
            (pyRStrip (q0 :: qT)) ++ (wr ++ ['\n'])).length + 1) _
            (Nat.lt_succ_self _)]
        rw [show (subFence (subLit btick "``json".data (pyRStrip (q0 :: qT)) ++
            (wr ++ ['\n']))) = subLit btick "``".data (subLit btick "``json".data
            (pyRStrip (q0 :: qT)) ++ (wr ++ ['\n'])) from rfl]
        rw [hD, hsp]
      · refine ⟨[], rfl, ?_⟩
        show subLit btick "``".data (subLit btick "``json".data
            (pyStrip ("```json\n".data ++ p ++ "\n```".data))) =
          subLit btick "``".data (subLit btick "``json".data (pyStrip p)) ++ []
        rw [hstrip, hF0, hdw, hsplit, hB, hassoc]
        rw [show (subLit btick "``".data ((subLit btick "``json".data
            (pyRStrip (q0 :: qT)) ++ (wr ++ ['\n'])) ++ fence)) =
          subFence ((subLit btick "``json".data
            (pyRStrip (q0 :: qT)) ++ (wr ++ ['\n'])) ++ fence) from rfl]
        rw [subFence_append_fence ((subLit btick "``json".data
            (pyRStrip (q0 :: qT)) ++ (wr ++ ['\n'])).length + 1) _
            (Nat.lt_succ_self _)]
        rw [show (subFence (subLit btick "``json".data (pyRStrip (q0 :: qT)) ++
            (wr ++ ['\n']))) = subLit btick "``".data (subLit btick "``json".data
            (pyRStrip (q0 :: qT)) ++ (wr ++ ['\n'])) from rfl]
        rw [hD, hsp, List.append_nil]
    · -- a trailing match swallowed the whitespace; only the fence remains
      refine ⟨[], rfl, ?_⟩
      show subLit btick "``".data (subLit btick "``json".data
          (pyStrip ("```json\n".data ++ p ++ "\n```".data))) =
        subLit btick "``".data (subLit btick "``json".data (pyStrip p)) ++ []
      rw [hstrip, hF0, hdw, hsplit, hB]
      rw [show (subLit btick "``".data (subLit btick "``json".data
          (pyRStrip (q0 :: qT)) ++ fence)) =
        subFence (subLit btick "``json".data (pyRStrip (q0 :: qT)) ++ fence)
        from rfl]
      rw [subFence_append_fence ((subLit btick "``json".data
          (pyRStrip (q0 :: qT))).length + 1) _ (Nat.lt_succ_self _)]
      rw [hsp, List.append_nil]
      rfl

/-- C9: wrapping a reply payload in Markdown code-fence markers (the
form the model actually emits: `` ```json ``, newline, payload, newline,
`` ``` ``) yields exactly the same parsed report as the bare payload, for
every decoder that — like Python's strict `json.loads` — is insensitive
to trailing whitespace. -/
theorem C9_fence_wrapped_reply_equivalent (loads : List Char → Option Json)
    (hws : ∀ s w : List Char, w.all isPySpace = true → loads (s ++ w) = loads s)
    (payload : List Char) :
    parseGeminiResponse loads ("```json\n".data ++ payload ++ "\n```".data) =
      parseGeminiResponse loads payload := by
  obtain ⟨w, hw, hclean⟩ := clean_wrap payload
  simp only [parseGeminiResponse]
  rw [hclean, hws _ _ hw]

/-- Witness for C9: a concrete whitespace-insensitive decoder and the
payload `[]`, wrapped and bare. -/
theorem C9_fence_wrapped_reply_equivalent_witness :
    parseGeminiResponse
        (fun s => if pyStrip s = "[]".data then some (Json.arr []) else none)
        ("```json\n".data ++ "[]".data ++ "\n```".data) =
      parseGeminiResponse
        (fun s => if pyStrip s = "[]".data then some (Json.arr []) else none)
        "[]".data :=
  C9_fence_wrapped_reply_equivalent
    (fun s => if pyStrip s = "[]".data then some (Json.arr []) else none)
    (fun s w hw => by simp only [pyStrip_append_ws s w hw])
    "[]".data

end GlacierCare
